import Mathlib

/-!
Verification of the `lexer` Go package (github.com/paulgriffiths/lexer).

The development shallowly embeds the package's code: `indexedBuffer` and its
operations from buffer.go, `Token` from token.go, and `New` / `Lex` /
`getNextToken` from lexer.go.  The underlying regular-expression engine
(Go's `regexp` in `Longest` mode) is an external collaborator; it is
modelled by a small regex AST (`Regex`, with `rmatch` as its matching
semantics) together with the documented contract of the combined matcher
built by `New`: each lexeme pattern is wrapped as a tagged group anchored
with `^`, the engine reports the leftmost-longest match, and on a tie at
the longest length the earliest alternative wins (the behaviour the
package's own tests exercise).  Strings are modelled as lists of
characters.
-/

/-- Strings are modelled as lists of characters. -/
abbrev Str := List Char

/-- Regex abstract syntax: the shapes of pattern the external engine
compiles.  `group` is a (possibly named) capturing group, transparent for
matching; Go's unnamed groups carry the empty name. -/
inductive Regex where
  | emp : Regex
  | eps : Regex
  | chr : List Char → Regex
  | cat : Regex → Regex → Regex
  | alt : Regex → Regex → Regex
  | star : Regex → Regex
  | group : Str → Regex → Regex
deriving DecidableEq

/-- Does the regex accept the empty string? -/
def Regex.nullable : Regex → Bool
  | .emp => false
  | .eps => true
  | .chr _ => false
  | .cat r1 r2 => r1.nullable && r2.nullable
  | .alt r1 r2 => r1.nullable || r2.nullable
  | .star _ => true
  | .group _ r => r.nullable

/-- Brzozowski derivative of a regex by one character. -/
def Regex.deriv : Regex → Char → Regex
  | .emp, _ => .emp
  | .eps, _ => .emp
  | .chr cs, c => if cs.contains c then .eps else .emp
  | .cat r1 r2, c =>
    if r1.nullable then .alt (.cat (r1.deriv c) r2) (r2.deriv c)
    else .cat (r1.deriv c) r2
  | .alt r1 r2, c => .alt (r1.deriv c) (r2.deriv c)
  | .star r, c => .cat (r.deriv c) (.star r)
  | .group _ r, c => r.deriv c

/-- Matching semantics of the external engine: does `r` match exactly the
string `s`? -/
def rmatch (r : Regex) (s : Str) : Bool :=
  (s.foldl Regex.deriv r).nullable

/-- Names of the capturing groups of a regex, in order of their opening
parentheses (the order Go's `SubexpNames` reports, sans the whole-match
entry). -/
def Regex.groupNames : Regex → List Str
  | .emp => []
  | .eps => []
  | .chr _ => []
  | .cat r1 r2 => r1.groupNames ++ r2.groupNames
  | .alt r1 r2 => r1.groupNames ++ r2.groupNames
  | .star r => r.groupNames
  | .group n r => n :: r.groupNames

/-- One lexeme pattern as handed to `New`: the source string of the
pattern and the regex the external engine compiles it to. -/
structure LexPattern where
  src : Str
  re : Regex
deriving DecidableEq

/-- Token from token.go: pattern index, matched text, input offset. -/
structure Token where
  ID : Int
  Value : Str
  Index : Nat
deriving DecidableEq

/-- indexedBuffer from buffer.go: the whole input plus a cursor. -/
structure indexedBuffer where
  buffer : Str
  index : Nat
deriving DecidableEq

/-- endOfInput from buffer.go. -/
def indexedBuffer.endOfInput (b : indexedBuffer) : Bool :=
  b.buffer.length ≤ b.index

/-- advance from buffer.go. -/
def indexedBuffer.advance (b : indexedBuffer) (n : Nat) : indexedBuffer :=
  ⟨b.buffer, b.index + n⟩

/-- next from buffer.go: the input from the cursor to the end. -/
def indexedBuffer.next (b : indexedBuffer) : Str :=
  b.buffer.drop b.index

/-- current from buffer.go (only meaningful before the end of input). -/
def indexedBuffer.current (b : indexedBuffer) : Char :=
  b.buffer.getD b.index (Char.ofNat 0)

/-- substring from buffer.go: `n` bytes starting at the cursor. -/
def indexedBuffer.substring (b : indexedBuffer) (n : Nat) : Str :=
  (b.buffer.drop b.index).take n

/-- Whitespace classification of `unicode.IsSpace` restricted to single
bytes, as used by skipWhitespace in buffer.go. -/
def isSpaceByte (c : Char) : Bool :=
  c == '\t' || c == '\n' || c == Char.ofNat 11 || c == Char.ofNat 12 ||
  c == '\r' || c == ' ' || c == Char.ofNat 133 || c == Char.ofNat 160

/-- Loop body of skipWhitespace from buffer.go; the fuel only bounds the
iteration count and `b.buffer.length - b.index` is always enough, since
each step moves the cursor forward by one. -/
def skipWSAux (skipNewline : Bool) : Nat → indexedBuffer → indexedBuffer
  | 0, b => b
  | fuel + 1, b =>
    if b.endOfInput then b
    else
      let r := b.buffer.getD b.index (Char.ofNat 0)
      if (!skipNewline && r == '\n') || !isSpaceByte r then b
      else skipWSAux skipNewline fuel ⟨b.buffer, b.index + 1⟩

/-- skipWhitespace from buffer.go: move the cursor past whitespace; a
newline counts as whitespace only when `skipNewline` is true. -/
def indexedBuffer.skipWhitespace (b : indexedBuffer) (skipNewline : Bool) : indexedBuffer :=
  skipWSAux skipNewline (b.buffer.length - b.index) b

/-- One `^`-anchored alternative of the combined pattern: in Go's syntax
`(?P<i>^pat)`, the alternative matches a span of the text only when the
span starts at position 0 of the text handed to the matcher. -/
def wrappedMatchAt (p : Regex) (t : Str) (start len : Nat) : Bool :=
  start == 0 && rmatch p ((t.drop start).take len)

/-- Longest span length `≤ d` that the anchored alternative `p` matches at
`start`, trying longer spans first. -/
def tryLens (p : Regex) (t : Str) (start : Nat) : Nat → Option Nat
  | 0 => if wrappedMatchAt p t start 0 then some 0 else none
  | d + 1 => if wrappedMatchAt p t start (d + 1) then some (d + 1) else tryLens p t start d

/-- Longest match length of the anchored alternative `p` at position
`start` of the text, if any. -/
def spanMatch (p : Regex) (t : Str) (start : Nat) : Option Nat :=
  tryLens p t start (t.length - start)

/-- Longest-mode selection among the alternatives' longest match lengths:
the overall match is the longest achieved length, and the earliest
alternative achieving it is the one whose group is recorded. -/
def bestOf : List (Option Nat) → Option (Nat × Nat)
  | [] => none
  | none :: rest => (bestOf rest).map (fun wl => (wl.1 + 1, wl.2))
  | some l :: rest =>
    match bestOf rest with
    | some (w, l') => if l < l' then (some (w + 1, l')) else some (0, l)
    | none => some (0, l)

/-- Winner and length of the combined matcher at one scan position. -/
def bestAt (ps : List Regex) (t : Str) (start : Nat) : Option (Nat × Nat) :=
  bestOf (ps.map (fun p => spanMatch p t start))

/-- Leftmost search of `FindAllSubmatchIndex`: try successive start
positions until one yields a match.  `k` counts the positions left to
try. -/
def searchLoop (ps : List Regex) (t : Str) (start : Nat) : Nat → Option (Nat × Nat × Nat)
  | 0 => none
  | k + 1 =>
    match bestAt ps t start with
    | some (w, len) => some (start, w, len)
    | none => searchLoop ps t (start + 1) k

/-- Top-level result of `FindAllSubmatchIndex(text, 1)` on the combined
pattern: start position, winning alternative, and match length. -/
def findSubmatch (ps : List Regex) (t : Str) : Option (Nat × Nat × Nat) :=
  searchLoop ps t 0 (t.length + 1)

/-- Little-endian decimal digits of `n`; `fuel ≥ n` makes the recursion
total. -/
def toDigitsRev : Nat → Nat → List Nat
  | 0, _ => []
  | fuel + 1, n => if n = 0 then [] else n % 10 :: toDigitsRev fuel (n / 10)

/-- Decimal representation of `n`, the model of `fmt.Sprintf("%d", i)`
that `New` uses to name the tag group of pattern `i`. -/
def decimalString (n : Nat) : Str :=
  if n = 0 then ['0'] else (toDigitsRev n n).reverse.map (fun d => Char.ofNat (d + 48))

/-- Value of one decimal digit character. -/
def digitVal (c : Char) : Option Nat :=
  if 48 ≤ c.toNat ∧ c.toNat ≤ 57 then some (c.toNat - 48) else none

/-- Accumulating decimal parse of a digit string. -/
def parseDigitsAux : List Char → Nat → Option Nat
  | [], acc => some acc
  | c :: cs, acc =>
    match digitVal c with
    | some d => parseDigitsAux cs (acc * 10 + d)
    | none => none

/-- Decimal parse of a non-empty digit string. -/
def parseDigits : List Char → Option Nat
  | [] => none
  | c :: cs => parseDigitsAux (c :: cs) 0

/-- Model of `strconv.ParseInt(s, 10, 32)` as applied to a group name in
getNextToken: optional sign, decimal digits, 32-bit signed range. -/
def parseGroupName (s : Str) : Option Int :=
  match s with
  | [] => none
  | c :: rest =>
    if c == '+' then
      (parseDigits rest).bind (fun n => if n ≤ 2147483647 then some (n : Int) else none)
    else if c == '-' then
      (parseDigits rest).bind (fun n => if n ≤ 2147483648 then some (-(n : Int)) else none)
    else
      (parseDigits (c :: rest)).bind (fun n => if n ≤ 2147483647 then some (n : Int) else none)

/-- Subexpression names of the combined pattern built by `New`, starting
at pattern index `i`: for each pattern, its decimal tag name followed by
the names of the groups inside the user's own pattern. -/
def subexpNamesFrom : List LexPattern → Nat → List Str
  | [], _ => []
  | p :: ps, i => (decimalString i :: p.re.groupNames) ++ subexpNamesFrom ps (i + 1)

/-- Subexpression names of the combined pattern (sans the whole match). -/
def subexpNames (ps : List LexPattern) : List Str :=
  subexpNamesFrom ps 0

/-- Per-pattern blocks of the submatch index array: the winner's tag group
spans `[0, L)`; every group of a losing alternative is unset; the groups
inside the winner's own pattern are reported unset in this canonical
result. -/
def canonicalBlocksFrom : List LexPattern → Nat → Nat → Nat → List (List (Option (Nat × Nat)))
  | [], _, _, _ => []
  | p :: ps, i, w, L =>
    ((if i == w then some (0, L) else none) :: p.re.groupNames.map (fun _ => none)) ::
      canonicalBlocksFrom ps (i + 1) w L

/-- Canonical submatch index array for winner `w` at length `L`. -/
def canonicalEntries (ps : List LexPattern) (w L : Nat) : List (Option (Nat × Nat)) :=
  (canonicalBlocksFrom ps 0 w L).flatten

/-- Engine contract for the submatch index array, winner `w`, length `L`:
blockwise, each block has one entry for the pattern's tag group and one
per group inside the user's pattern; the winner's tag group spans
`[0, L)`; every group of a losing alternative is unset; the entries for
the groups inside the winner's own pattern are arbitrary. -/
def validBlocks : List LexPattern → Nat → Nat → Nat → List (List (Option (Nat × Nat))) → Bool
  | [], _, _, _, blocks => blocks.isEmpty
  | _ :: _, _, _, _, [] => false
  | p :: ps, i, w, L, blk :: blocks =>
    blk.length == p.re.groupNames.length + 1 &&
    (if i == w then blk.head? == some (some (0, L)) else blk.all (fun e => e == none)) &&
    validBlocks ps (i + 1) w L blocks

/-- A submatch index array consistent with the engine contract. -/
def ValidEntries (ps : List LexPattern) (w L : Nat) (entries : List (Option (Nat × Nat))) : Prop :=
  ∃ blocks, entries = blocks.flatten ∧ validBlocks ps 0 w L blocks = true

/-- Loop of getNextToken over the subexpressions: skip unset groups, skip
groups whose name does not parse as a number, and return the parsed
number and span length of the first remaining group. -/
def scanGroups : List (Str × Option (Nat × Nat)) → Option (Int × Nat)
  | [] => none
  | (name, entry) :: rest =>
    match entry with
    | none => scanGroups rest
    | some (bg, en) =>
      match parseGroupName name with
      | none => scanGroups rest
      | some dn => some (dn, en - bg)

/-- Lexer from lexer.go: the patterns (source plus compiled form) and the
skip-newline flag. -/
structure Lexer where
  lexemes : List LexPattern
  skipNewline : Bool
deriving DecidableEq

/-- New from lexer.go: record the patterns and derive the skip-newline
flag, which is true unless the literal newline string appears verbatim
among the lexeme patterns. -/
def New (lexemes : List LexPattern) : Lexer :=
  ⟨lexemes, !(lexemes.any (fun l => l.src == ['\n']))⟩

/-- Result of one getNextToken call: a token plus the advanced buffer, a
match failure carrying the error token and the failure offset, or the
final branch that Go reaches with `panic`. -/
inductive TokenResult where
  | tok : Token → indexedBuffer → TokenResult
  | noMatch : Token → Nat → TokenResult
  | panicked : TokenResult
deriving DecidableEq

/-- Full engine response for one getNextToken call: `none` when nothing
matches, otherwise the canonical submatch index array. -/
def engineRun (ps : List LexPattern) (t : Str) : Option (List (Option (Nat × Nat))) :=
  (findSubmatch (ps.map (fun p => p.re)) t).map (fun r => canonicalEntries ps r.2.1 r.2.2)

/-- getNextToken from lexer.go, parametrised by the engine's submatch
index array. -/
def getNextTokenWith (l : Lexer) (b : indexedBuffer) (result : Option (List (Option (Nat × Nat)))) : TokenResult :=
  match result with
  | none => .noMatch ⟨-1, [b.current], b.index⟩ b.index
  | some entries =>
    match scanGroups ((subexpNames l.lexemes).zip entries) with
    | some (dn, len) => .tok ⟨dn, b.substring len, b.index⟩ (b.advance len)
    | none => .panicked

/-- getNextToken from lexer.go, run against the engine model. -/
def Lexer.getNextToken (l : Lexer) (b : indexedBuffer) : TokenResult :=
  getNextTokenWith l b (engineRun l.lexemes b.next)

/-- Outcome of one Lex call: the token list, a match error carrying the
failure offset (the token list is dropped), the propagated panic, or
divergence of the scan loop (fuel exhausted, which `Lex` sizes so that it
only happens when the loop fails to make progress). -/
inductive LexResult where
  | ok : List Token → LexResult
  | matchErr : Nat → LexResult
  | panicked : LexResult
  | diverged : LexResult
deriving DecidableEq

/-- Scan loop of Lex from lexer.go: skip whitespace, stop at end of
input, get the next token, append, repeat. -/
def lexLoop (l : Lexer) : Nat → indexedBuffer → List Token → LexResult
  | 0, _, _ => .diverged
  | fuel + 1, b, list =>
    let b2 := b.skipWhitespace l.skipNewline
    if b2.endOfInput then .ok list
    else
      match l.getNextToken b2 with
      | .tok t b3 => lexLoop l fuel b3 (list ++ [t])
      | .noMatch _ idx => .matchErr idx
      | .panicked => .panicked

/-- Lex from lexer.go.  The fuel `input.length + 1` is exhausted only when
an iteration of the scan loop fails to advance the cursor, which is
exactly the infinite-loop case of the Go code. -/
def Lexer.Lex (l : Lexer) (input : Str) : LexResult :=
  lexLoop l (input.length + 1) ⟨input, 0⟩ []

/-- Regex matching exactly one literal string, the compiled form of a
pattern with no metacharacters. -/
def strRe (s : Str) : Regex :=
  s.foldr (fun c r => .cat (.chr [c]) r) .eps

/-- Literal pattern: the source string compiles to itself. -/
def litPat (s : Str) : LexPattern :=
  ⟨s, strRe s⟩

/-- Value of a little-endian decimal digit list. -/
def ofDigitsLE : List Nat → Nat
  | [] => 0
  | d :: l => d + 10 * ofDigitsLE l

/-- Hypothesis of claim C1 at one scan position: every pattern other than
pattern `i` either fails to match or its longest match is strictly
shorter than `li`. -/
def allOthersShorter (l : Lexer) (t : Str) (i li : Nat) : Bool :=
  l.lexemes.enum.all fun pr =>
    pr.1 == i ||
      match spanMatch pr.2.re t 0 with
      | some lj => decide (lj < li)
      | none => true

/-- Hypothesis of claim C2: no pattern matches longer than `L`. -/
def noLonger (l : Lexer) (t : Str) (L : Nat) : Bool :=
  l.lexemes.all fun q =>
    match spanMatch q.re t 0 with
    | some lj => decide (lj ≤ L)
    | none => true

/-- Hypothesis of claim C2: no pattern before index `i` also achieves the
longest length `L`. -/
def noEarlierTie (l : Lexer) (t : Str) (i L : Nat) : Bool :=
  l.lexemes.enum.all fun pr =>
    decide (i ≤ pr.1) || !(spanMatch pr.2.re t 0 == some L)

/-- Buffer states the scan loop of Lex passes through: from a state, the
loop skips whitespace and, when a token is produced there, continues at
the advanced buffer.  `Reaches l b c` holds when state `c` occurs in the
scan that starts at state `b`. -/
inductive Reaches (l : Lexer) : indexedBuffer → indexedBuffer → Prop where
  | refl (b : indexedBuffer) : Reaches l b b
  | step (b b3 c : indexedBuffer) (t : Token)
      (hend : (b.skipWhitespace l.skipNewline).endOfInput = false)
      (htok : l.getNextToken (b.skipWhitespace l.skipNewline) = .tok t b3)
      (hrest : Reaches l b3 c) : Reaches l b c

/-- Engine contract for one getNextToken call: the engine reports no
entries exactly when nothing matches, and otherwise any submatch index
array consistent with `ValidEntries` for the winning alternative. -/
def EngineOK (l : Lexer) (b : indexedBuffer) (res : Option (List (Option (Nat × Nat)))) : Prop :=
  match findSubmatch (l.lexemes.map (fun p => p.re)) b.next, res with
  | none, none => True
  | some r, some entries => ValidEntries l.lexemes r.2.1 r.2.2 entries
  | _, _ => False

/-- Go's `<` on strings: bytewise lexicographic comparison. -/
def strLt : Str → Str → Bool
  | [], [] => false
  | [], _ :: _ => true
  | _ :: _, [] => false
  | a :: as, b :: bs => if a < b then true else if b < a then false else strLt as bs

/-- Less from token.go, translated guard for guard. -/
def Token.Less (t other : Token) : Bool :=
  if strLt t.Value other.Value then true
  else if t.ID < other.ID then true
  else decide (t.Index < other.Index)

/-- Modelled from the spec: the secondary ordering "by value, then
pattern index, then offset", i.e. true lexicographic precedence of
`(Value, ID, Index)`. -/
def specOrderedLess (t u : Token) : Bool :=
  if strLt t.Value u.Value then true
  else if strLt u.Value t.Value then false
  else if t.ID < u.ID then true
  else if u.ID < t.ID then false
  else decide (t.Index < u.Index)

/-- Pattern set refuting the literal reading of the newline duality: a
base pattern whose source is the two-alternative regex matching a newline
or a space (its source string is not the verbatim one-character newline),
plus the literal newline pattern. -/
def c5CexPatterns : List LexPattern :=
  [⟨['\n','|',' '], .alt (.chr ['\n']) (.chr [' '])⟩, litPat ['\n']]

lemma wrappedMatchAt_true {p : Regex} {t : Str} {s len : Nat}
    (h : wrappedMatchAt p t s len = true) : s = 0 ∧ rmatch p (t.take len) = true := by
  simp only [wrappedMatchAt, Bool.and_eq_true, beq_iff_eq] at h
  obtain ⟨h1, h2⟩ := h
  subst h1
  simpa using h2

lemma tryLens_le {p : Regex} {t : Str} {s : Nat} :
    ∀ {d L : Nat}, tryLens p t s d = some L → L ≤ d := by
  intro d
  induction d with
  | zero =>
    intro L h
    unfold tryLens at h
    split at h
    · simp at h; omega
    · simp at h
  | succ d ih =>
    intro L h
    unfold tryLens at h
    split at h
    · simp at h; omega
    · exact Nat.le_succ_of_le (ih h)

lemma tryLens_sound {p : Regex} {t : Str} {s : Nat} :
    ∀ {d L : Nat}, tryLens p t s d = some L → s = 0 ∧ rmatch p (t.take L) = true := by
  intro d
  induction d with
  | zero =>
    intro L h
    unfold tryLens at h
    split at h
    case isTrue hw =>
      simp at h
      subst h
      exact wrappedMatchAt_true hw
    case isFalse hw => simp at h
  | succ d ih =>
    intro L h
    unfold tryLens at h
    split at h
    case isTrue hw =>
      simp at h
      subst h
      exact wrappedMatchAt_true hw
    case isFalse hw => exact ih h

lemma tryLens_start_ne {p : Regex} {t : Str} {s : Nat} (hs : s ≠ 0) :
    ∀ d : Nat, tryLens p t s d = none := by
  intro d
  induction d with
  | zero =>
    unfold tryLens
    split
    case isTrue hw => exact absurd (wrappedMatchAt_true hw).1 hs
    case isFalse hw => rfl
  | succ d ih =>
    unfold tryLens
    split
    case isTrue hw => exact absurd (wrappedMatchAt_true hw).1 hs
    case isFalse hw => exact ih

lemma spanMatch_sound {p : Regex} {t : Str} {s L : Nat} (h : spanMatch p t s = some L) :
    s = 0 ∧ L ≤ t.length ∧ rmatch p (t.take L) = true := by
  unfold spanMatch at h
  refine ⟨(tryLens_sound h).1, ?_, (tryLens_sound h).2⟩
  have := tryLens_le h
  omega

lemma spanMatch_start_ne {p : Regex} {t : Str} {s : Nat} (hs : s ≠ 0) :
    spanMatch p t s = none := by
  unfold spanMatch
  exact tryLens_start_ne hs _

lemma bestOf_sound : ∀ {ls : List (Option Nat)} {w L : Nat},
    bestOf ls = some (w, L) → ls.get? w = some (some L) := by
  intro ls
  induction ls with
  | nil => intro w L h; simp [bestOf] at h
  | cons o rest ih =>
    intro w L h
    cases o with
    | none =>
      simp only [bestOf] at h
      rcases Option.map_eq_some'.mp h with ⟨⟨w', L'⟩, hb, heq⟩
      simp at heq
      obtain ⟨hw, hL⟩ := heq
      subst hw; subst hL
      simpa using ih hb
    | some l0 =>
      simp only [bestOf] at h
      cases hb : bestOf rest with
      | none =>
        rw [hb] at h
        simp at h
        obtain ⟨hw, hL⟩ := h
        subst hw; subst hL
        rfl
      | some wl =>
        obtain ⟨w', l'⟩ := wl
        rw [hb] at h
        by_cases hlt : l0 < l'
        · simp [hlt] at h
          obtain ⟨hw, hL⟩ := h
          subst hw; subst hL
          simpa using ih hb
        · simp [hlt] at h
          obtain ⟨hw, hL⟩ := h
          subst hw; subst hL
          rfl

lemma bestOf_none {ls : List (Option Nat)} (h : ∀ o ∈ ls, o = none) :
    bestOf ls = none := by
  induction ls with
  | nil => rfl
  | cons o rest ih =>
    have ho : o = none := h o (by simp)
    subst ho
    simp only [bestOf]
    rw [ih (fun o ho => h o (by simp [ho]))]
    rfl

lemma bestOf_least : ∀ {ls : List (Option Nat)} {i L : Nat},
    ls.get? i = some (some L) →
    (∀ j lj, ls.get? j = some (some lj) → lj ≤ L) →
    (∀ j, j < i → ls.get? j ≠ some (some L)) →
    bestOf ls = some (i, L) := by
  intro ls
  induction ls with
  | nil => intro i L h _ _; simp at h
  | cons o rest ih =>
    intro i L hget hle hne
    cases i with
    | zero =>
      simp at hget
      subst hget
      simp only [bestOf]
      cases hb : bestOf rest with
      | none => rfl
      | some wl =>
        obtain ⟨w', l'⟩ := wl
        have hmem : rest.get? w' = some (some l') := bestOf_sound hb
        have : l' ≤ L := hle (w' + 1) l' (by simpa using hmem)
        have hnlt : ¬ L < l' := by omega
        simp [hnlt]
    | succ i' =>
      have hget' : rest.get? i' = some (some L) := by simpa using hget
      have hle' : ∀ j lj, rest.get? j = some (some lj) → lj ≤ L := by
        intro j lj hj
        exact hle (j + 1) lj (by simpa using hj)
      have hne' : ∀ j, j < i' → rest.get? j ≠ some (some L) := by
        intro j hj hcon
        exact hne (j + 1) (by omega) (by simpa using hcon)
      have hrest : bestOf rest = some (i', L) := ih hget' hle' hne'
      cases o with
      | none =>
        simp only [bestOf]
        rw [hrest]
        rfl
      | some l0 =>
        have h0 : l0 ≤ L := hle 0 l0 (by simp)
        have h0ne : l0 ≠ L := by
          intro hcon
          exact hne 0 (by omega) (by simp [hcon])
        have hlt : l0 < L := by omega
        simp only [bestOf]
        rw [hrest]
        simp [hlt]

lemma bestAt_start_ne {ps : List Regex} {t : Str} {s : Nat} (hs : s ≠ 0) :
    bestAt ps t s = none := by
  apply bestOf_none
  intro o ho
  rcases List.mem_map.mp ho with ⟨p, _, rfl⟩
  exact spanMatch_start_ne hs

lemma bestAt_sound {ps : List Regex} {t : Str} {s w L : Nat}
    (h : bestAt ps t s = some (w, L)) :
    ∃ p, ps.get? w = some p ∧ spanMatch p t s = some L := by
  have := bestOf_sound h
  rw [List.get?_map] at this
  rcases Option.map_eq_some'.mp this with ⟨p, hp, hsp⟩
  exact ⟨p, hp, by simpa using hsp⟩

lemma searchLoop_sound {ps : List Regex} {t : Str} :
    ∀ {k s s' w L : Nat}, searchLoop ps t s k = some (s', w, L) →
      bestAt ps t s' = some (w, L) := by
  intro k
  induction k with
  | zero => intro s s' w L h; simp [searchLoop] at h
  | succ k ih =>
    intro s s' w L h
    unfold searchLoop at h
    cases hb : bestAt ps t s with
    | none => rw [hb] at h; exact ih h
    | some wl =>
      obtain ⟨w0, L0⟩ := wl
      rw [hb] at h
      simp at h
      obtain ⟨hs, hw, hL⟩ := h
      subst hs; subst hw; subst hL
      exact hb

lemma findSubmatch_sound {ps : List Regex} {t : Str} {s w L : Nat}
    (h : findSubmatch ps t = some (s, w, L)) :
    s = 0 ∧ bestAt ps t 0 = some (w, L) := by
  have hb := searchLoop_sound h
  by_cases hs : s = 0
  · subst hs; exact ⟨rfl, hb⟩
  · rw [bestAt_start_ne hs] at hb
    exact absurd hb (by simp)

lemma findSubmatch_of_bestAt {ps : List Regex} {t : Str} {w L : Nat}
    (h : bestAt ps t 0 = some (w, L)) : findSubmatch ps t = some (0, w, L) := by
  unfold findSubmatch
  unfold searchLoop
  rw [h]

lemma toDigitsRev_zero : ∀ fuel : Nat, toDigitsRev fuel 0 = [] := by
  intro fuel
  cases fuel <;> simp [toDigitsRev]

lemma toDigitsRev_lt10 : ∀ (fuel n d : Nat), d ∈ toDigitsRev fuel n → d < 10 := by
  intro fuel
  induction fuel with
  | zero => intro n d h; simp [toDigitsRev] at h
  | succ fuel ih =>
    intro n d h
    unfold toDigitsRev at h
    split at h
    · simp at h
    · rcases List.mem_cons.mp h with h1 | h1
      · subst h1; exact Nat.mod_lt _ (by omega)
      · exact ih _ _ h1

lemma ofDigitsLE_toDigitsRev : ∀ (fuel n : Nat), 0 < n → n ≤ fuel →
    ofDigitsLE (toDigitsRev fuel n) = n := by
  intro fuel
  induction fuel with
  | zero => intro n h1 h2; omega
  | succ fuel ih =>
    intro n h1 h2
    unfold toDigitsRev
    split
    · omega
    · by_cases hq : n / 10 = 0
      · rw [hq, toDigitsRev_zero]
        have := Nat.div_add_mod n 10
        simp [ofDigitsLE]
        omega
      · have hlt : n / 10 < n := Nat.div_lt_self h1 (by omega)
        have : ofDigitsLE (toDigitsRev fuel (n / 10)) = n / 10 :=
          ih (n / 10) (by omega) (by omega)
        simp [ofDigitsLE, this]
        have := Nat.div_add_mod n 10
        omega

lemma toDigitsRev_ne_nil {n : Nat} (h : 0 < n) : toDigitsRev n n ≠ [] := by
  cases n with
  | zero => omega
  | succ m => simp [toDigitsRev]

lemma digitVal_ofNat {d : Nat} (h : d < 10) :
    digitVal (Char.ofNat (d + 48)) = some d := by
  interval_cases d <;> rfl

lemma parseDigitsAux_digits : ∀ (l : List Nat) (acc : Nat), (∀ d ∈ l, d < 10) →
    parseDigitsAux (l.map (fun d => Char.ofNat (d + 48))) acc =
      some (l.foldl (fun a d => a * 10 + d) acc) := by
  intro l
  induction l with
  | nil => intro acc _; rfl
  | cons d l ih =>
    intro acc hd
    simp only [List.map_cons, parseDigitsAux, List.foldl_cons]
    rw [digitVal_ofNat (hd d (by simp))]
    exact ih (acc * 10 + d) (fun d hd' => hd d (by simp [hd']))

lemma foldl_rev_ofDigitsLE : ∀ (l : List Nat) (acc : Nat),
    l.reverse.foldl (fun a d => a * 10 + d) acc = acc * 10 ^ l.length + ofDigitsLE l := by
  intro l
  induction l with
  | nil => intro acc; simp [ofDigitsLE]
  | cons d l ih =>
    intro acc
    simp only [List.reverse_cons, List.foldl_append, List.foldl_cons, List.foldl_nil]
    rw [ih acc]
    simp [ofDigitsLE, List.length_cons, pow_succ]
    ring

lemma parseGroupName_cons (c : Char) (rest : List Char) :
    parseGroupName (c :: rest) =
      if c == '+' then
        (parseDigits rest).bind (fun n => if n ≤ 2147483647 then some (n : Int) else none)
      else if c == '-' then
        (parseDigits rest).bind (fun n => if n ≤ 2147483648 then some (-(n : Int)) else none)
      else
        (parseDigits (c :: rest)).bind (fun n => if n ≤ 2147483647 then some (n : Int) else none) :=
  rfl

lemma parse_decimal_roundtrip {n : Nat} (h : n ≤ 2147483647) :
    parseGroupName (decimalString n) = some (n : Int) := by
  by_cases hn : n = 0
  · subst hn; rfl
  · have hpos : 0 < n := by omega
    unfold decimalString
    rw [if_neg hn]
    have hnil := toDigitsRev_ne_nil hpos
    cases hrev : (toDigitsRev n n).reverse with
    | nil => exact absurd (by simpa using hrev) hnil
    | cons d ds =>
      have hdmem : d ∈ toDigitsRev n n := by
        rw [← List.mem_reverse, hrev]; simp
      have hd10 : d < 10 := toDigitsRev_lt10 _ _ _ hdmem
      have hds10 : ∀ x ∈ toDigitsRev n n, x < 10 := fun x hx => toDigitsRev_lt10 _ _ _ hx
      have hrevall : ∀ x ∈ (toDigitsRev n n).reverse, x < 10 := by
        intro x hx; exact hds10 x (List.mem_reverse.mp hx)
      simp only [List.map_cons]
      have hplus : (Char.ofNat (d + 48) == '+') = false := by
        interval_cases d <;> rfl
      have hminus : (Char.ofNat (d + 48) == '-') = false := by
        interval_cases d <;> rfl
      rw [parseGroupName_cons, hplus, hminus]
      simp only [Bool.false_eq_true, if_false]
      have hparse : parseDigits (Char.ofNat (d + 48) :: ds.map (fun x => Char.ofNat (x + 48))) =
          some n := by
        have hmap : Char.ofNat (d + 48) :: ds.map (fun x => Char.ofNat (x + 48)) =
            ((d :: ds).map (fun x => Char.ofNat (x + 48))) := by simp
        have hcons : (d :: ds) = (toDigitsRev n n).reverse := hrev.symm
        have step : parseDigits (Char.ofNat (d + 48) :: ds.map (fun x => Char.ofNat (x + 48))) =
            parseDigitsAux (Char.ofNat (d + 48) :: ds.map (fun x => Char.ofNat (x + 48))) 0 := rfl
        rw [step, hmap, hcons]
        rw [parseDigitsAux_digits _ 0 hrevall]
        rw [foldl_rev_ofDigitsLE]
        rw [ofDigitsLE_toDigitsRev n n hpos (Nat.le_refl n)]
        simp
      rw [hparse]
      simp [h]

lemma scanGroups_cons_none (name : Str) (rest : List (Str × Option (Nat × Nat))) :
    scanGroups ((name, none) :: rest) = scanGroups rest := rfl

lemma scanGroups_cons_some (name : Str) (bg en : Nat) (rest : List (Str × Option (Nat × Nat))) :
    scanGroups ((name, some (bg, en)) :: rest) =
      match parseGroupName name with
      | none => scanGroups rest
      | some dn => some (dn, en - bg) := rfl

lemma scanGroups_cons_parse_some {name : Str} {bg en : Nat}
    {rest : List (Str × Option (Nat × Nat))} {dn : Int}
    (h : parseGroupName name = some dn) :
    scanGroups ((name, some (bg, en)) :: rest) = some (dn, en - bg) := by
  rw [scanGroups_cons_some, h]

lemma scanGroups_cons_parse_none {name : Str} {bg en : Nat}
    {rest : List (Str × Option (Nat × Nat))}
    (h : parseGroupName name = none) :
    scanGroups ((name, some (bg, en)) :: rest) = scanGroups rest := by
  rw [scanGroups_cons_some, h]

lemma scanGroups_append_none {xs ys : List (Str × Option (Nat × Nat))}
    (h : scanGroups xs = none) : scanGroups (xs ++ ys) = scanGroups ys := by
  induction xs with
  | nil => rfl
  | cons pr rest ih =>
    obtain ⟨name, entry⟩ := pr
    cases entry with
    | none =>
      rw [List.cons_append, scanGroups_cons_none]
      rw [scanGroups_cons_none] at h
      exact ih h
    | some be =>
      obtain ⟨bg, en⟩ := be
      cases hp : parseGroupName name with
      | none =>
        rw [List.cons_append, scanGroups_cons_parse_none hp]
        rw [scanGroups_cons_parse_none hp] at h
        exact ih h
      | some dn =>
        rw [scanGroups_cons_parse_some hp] at h
        exact absurd h (by simp)

lemma scanGroups_zip_none : ∀ (names : List Str) (entries : List (Option (Nat × Nat))),
    (∀ e ∈ entries, e = none) → scanGroups (names.zip entries) = none := by
  intro names
  induction names with
  | nil => intro entries _; rfl
  | cons nm names ih =>
    intro entries h
    cases entries with
    | nil => rfl
    | cons e es =>
      have he : e = none := h e (by simp)
      subst he
      rw [show (nm :: names).zip ((none : Option (Nat × Nat)) :: es) =
        (nm, (none : Option (Nat × Nat))) :: names.zip es from rfl]
      rw [scanGroups_cons_none]
      exact ih es (fun e he => h e (by simp [he]))

lemma zipPairAppend {α β : Type} : ∀ (l1 : List α) (l2 : List β) (r1 : List α) (r2 : List β),
    l1.length = l2.length → (l1 ++ r1).zip (l2 ++ r2) = l1.zip l2 ++ r1.zip r2 := by
  intro l1
  induction l1 with
  | nil =>
    intro l2 r1 r2 h
    cases l2 with
    | nil => rfl
    | cons b bs => simp at h
  | cons a as ih =>
    intro l2 r1 r2 h
    cases l2 with
    | nil => simp at h
    | cons b bs =>
      rw [List.cons_append, List.cons_append]
      rw [show ((a :: (as ++ r1)).zip (b :: (bs ++ r2))) =
        (a, b) :: (as ++ r1).zip (bs ++ r2) from rfl]
      rw [show ((a :: as).zip (b :: bs)) = (a, b) :: as.zip bs from rfl]
      rw [List.cons_append]
      rw [ih bs r1 r2 (by simpa using h)]

lemma validBlocks_shape {p : LexPattern} {ps : List LexPattern} {i w L : Nat}
    {blk : List (Option (Nat × Nat))} {blocks : List (List (Option (Nat × Nat)))}
    (h : validBlocks (p :: ps) i w L (blk :: blocks) = true) :
    blk.length = p.re.groupNames.length + 1 ∧
    (if i == w then blk.head? == some (some (0, L)) else blk.all (fun e => e == none)) = true ∧
    validBlocks ps (i + 1) w L blocks = true := by
  simp only [validBlocks, Bool.and_eq_true] at h
  obtain ⟨⟨h1, h2⟩, h3⟩ := h
  exact ⟨by simpa using h1, h2, h3⟩

lemma scanGroups_valid : ∀ (ps : List LexPattern) (blocks : List (List (Option (Nat × Nat))))
    (i w L : Nat),
    validBlocks ps i w L blocks = true → i ≤ w → w < i + ps.length → w ≤ 2147483647 →
    scanGroups ((subexpNamesFrom ps i).zip blocks.flatten) = some ((w : Int), L) := by
  intro ps
  induction ps with
  | nil =>
    intro blocks i w L hv h1 h2 h3
    simp at h2
    omega
  | cons p ps ih =>
    intro blocks i w L hv h1 h2 h3
    cases blocks with
    | nil => simp [validBlocks] at hv
    | cons blk rest =>
      obtain ⟨hlen, hcond, hrest⟩ := validBlocks_shape hv
      by_cases hiw : i = w
      · subst hiw
        rw [if_pos (by simp)] at hcond
        cases blk with
        | nil => simp at hcond
        | cons e tail =>
          have he : e = some (0, L) := by simpa using hcond
          subst he
          rw [show subexpNamesFrom (p :: ps) i =
            decimalString i :: (p.re.groupNames ++ subexpNamesFrom ps (i + 1)) from rfl]
          rw [show ((some (0, L) :: tail) :: rest).flatten =
            some (0, L) :: (tail ++ rest.flatten) from rfl]
          rw [show (decimalString i :: (p.re.groupNames ++ subexpNamesFrom ps (i + 1))).zip
              (some (0, L) :: (tail ++ rest.flatten)) =
            (decimalString i, some (0, L)) ::
              (p.re.groupNames ++ subexpNamesFrom ps (i + 1)).zip (tail ++ rest.flatten) from rfl]
          rw [scanGroups_cons_parse_some (parse_decimal_roundtrip h3)]
          simp
      · rw [if_neg (by simpa using hiw)] at hcond
        have hallnone : ∀ e ∈ blk, e = none := by
          intro e he
          have := (List.all_eq_true.mp hcond) e he
          simpa using this
        rw [show subexpNamesFrom (p :: ps) i =
          (decimalString i :: p.re.groupNames) ++ subexpNamesFrom ps (i + 1) from rfl]
        rw [show (blk :: rest).flatten = blk ++ rest.flatten from rfl]
        rw [zipPairAppend _ _ _ _ (by simp [hlen])]
        rw [scanGroups_append_none (scanGroups_zip_none _ _ hallnone)]
        exact ih rest (i + 1) w L hrest (by omega) (by simp at h2 ⊢; omega) h3

lemma canonicalBlocks_valid : ∀ (ps : List LexPattern) (i w L : Nat),
    validBlocks ps i w L (canonicalBlocksFrom ps i w L) = true := by
  intro ps
  induction ps with
  | nil => intro i w L; rfl
  | cons p ps ih =>
    intro i w L
    simp only [canonicalBlocksFrom, validBlocks, Bool.and_eq_true]
    refine ⟨⟨by simp, ?_⟩, ih (i + 1) w L⟩
    by_cases hiw : (i == w) = true
    · rw [if_pos hiw]
      simp [hiw]
    · rw [if_neg hiw]
      simp only [Bool.not_eq_true] at hiw
      rw [hiw]
      simp

lemma canonicalBlocks_none_of_gt : ∀ (ps : List LexPattern) (i w L : Nat), w < i →
    ∀ e ∈ (canonicalBlocksFrom ps i w L).flatten, e = none := by
  intro ps
  induction ps with
  | nil => intro i w L _ e he; simp [canonicalBlocksFrom] at he
  | cons p ps ih =>
    intro i w L hw e he
    simp only [canonicalBlocksFrom, List.flatten_cons, List.mem_append] at he
    rcases he with he | he
    · have hiw : (i == w) = false := by simp; omega
      rw [hiw] at he
      rcases List.mem_cons.mp he with h1 | h1
      · exact h1
      · rcases List.mem_map.mp h1 with ⟨_, _, rfl⟩
        rfl
    · exact ih (i + 1) w L (by omega) e he

lemma scan_canonical_len : ∀ (ps : List LexPattern) (i w L : Nat) (dn : Int) (len : Nat),
    scanGroups ((subexpNamesFrom ps i).zip (canonicalBlocksFrom ps i w L).flatten) =
      some (dn, len) → len = L := by
  intro ps
  induction ps with
  | nil => intro i w L dn len h; simp [subexpNamesFrom, scanGroups] at h
  | cons p ps ih =>
    intro i w L dn len h
    by_cases hiw : i = w
    · subst hiw
      rw [show subexpNamesFrom (p :: ps) i =
        decimalString i :: (p.re.groupNames ++ subexpNamesFrom ps (i + 1)) from rfl] at h
      rw [show (canonicalBlocksFrom (p :: ps) i i L).flatten =
        (if i == i then some (0, L) else none) ::
          (p.re.groupNames.map (fun _ => (none : Option (Nat × Nat))) ++
            (canonicalBlocksFrom ps (i + 1) i L).flatten) from rfl] at h
      rw [if_pos (by simp)] at h
      rw [show (decimalString i :: (p.re.groupNames ++ subexpNamesFrom ps (i + 1))).zip
          (some (0, L) :: (p.re.groupNames.map (fun _ => (none : Option (Nat × Nat))) ++
            (canonicalBlocksFrom ps (i + 1) i L).flatten)) =
        (decimalString i, some (0, L)) ::
          (p.re.groupNames ++ subexpNamesFrom ps (i + 1)).zip
            (p.re.groupNames.map (fun _ => (none : Option (Nat × Nat))) ++
              (canonicalBlocksFrom ps (i + 1) i L).flatten) from rfl] at h
      cases hp : parseGroupName (decimalString i) with
      | some dn' =>
        rw [scanGroups_cons_parse_some hp] at h
        simp at h
        omega
      | none =>
        rw [scanGroups_cons_parse_none hp] at h
        rw [zipPairAppend _ _ _ _ (by simp)] at h
        rw [scanGroups_append_none (scanGroups_zip_none _ _ (by
          intro e he
          rcases List.mem_map.mp he with ⟨_, _, rfl⟩
          rfl))] at h
        rw [scanGroups_zip_none _ _
          (canonicalBlocks_none_of_gt ps (i + 1) i L (by omega))] at h
        exact absurd h (by simp)
    · rw [show subexpNamesFrom (p :: ps) i =
        (decimalString i :: p.re.groupNames) ++ subexpNamesFrom ps (i + 1) from rfl] at h
      rw [show (canonicalBlocksFrom (p :: ps) i w L).flatten =
        ((if i == w then some (0, L) else none) ::
          p.re.groupNames.map (fun _ => (none : Option (Nat × Nat)))) ++
          (canonicalBlocksFrom ps (i + 1) w L).flatten from rfl] at h
      rw [if_neg (by simpa using hiw)] at h
      rw [zipPairAppend _ _ _ _ (by simp)] at h
      rw [scanGroups_append_none (scanGroups_zip_none _ _ (by
        intro e he
        rcases List.mem_cons.mp he with h1 | h1
        · exact h1
        · rcases List.mem_map.mp h1 with ⟨_, _, rfl⟩
          rfl))] at h
      exact ih (i + 1) w L dn len h

lemma canonicalEntries_valid (ps : List LexPattern) (w L : Nat) :
    ValidEntries ps w L (canonicalEntries ps w L) :=
  ⟨canonicalBlocksFrom ps 0 w L, rfl, canonicalBlocks_valid ps 0 w L⟩

lemma getNextTokenWith_none (l : Lexer) (b : indexedBuffer) :
    getNextTokenWith l b none = .noMatch ⟨-1, [b.current], b.index⟩ b.index := rfl

lemma getNextTokenWith_some (l : Lexer) (b : indexedBuffer)
    (entries : List (Option (Nat × Nat))) :
    getNextTokenWith l b (some entries) =
      match scanGroups ((subexpNames l.lexemes).zip entries) with
      | some (dn, len) => .tok ⟨dn, b.substring len, b.index⟩ (b.advance len)
      | none => .panicked := rfl

lemma getNextTokenWith_valid {l : Lexer} {b : indexedBuffer} {w L : Nat}
    {entries : List (Option (Nat × Nat))}
    (hn : l.lexemes.length ≤ 2147483648) (hw : w < l.lexemes.length)
    (hval : ValidEntries l.lexemes w L entries) :
    getNextTokenWith l b (some entries) =
      .tok ⟨(w : Int), b.substring L, b.index⟩ (b.advance L) := by
  obtain ⟨blocks, rfl, hvb⟩ := hval
  have hscan := scanGroups_valid l.lexemes blocks 0 w L hvb (by omega) (by omega) (by omega)
  rw [getNextTokenWith_some]
  rw [show subexpNames l.lexemes = subexpNamesFrom l.lexemes 0 from rfl]
  rw [hscan]

lemma engineRun_none {ps : List LexPattern} {t : Str}
    (h : findSubmatch (ps.map (fun p => p.re)) t = none) : engineRun ps t = none := by
  unfold engineRun
  rw [h]
  rfl

lemma engineRun_some {ps : List LexPattern} {t : Str} {s w L : Nat}
    (h : findSubmatch (ps.map (fun p => p.re)) t = some (s, w, L)) :
    engineRun ps t = some (canonicalEntries ps w L) := by
  unfold engineRun
  rw [h]
  rfl

lemma getNextToken_of_bestAt {l : Lexer} {b : indexedBuffer} {w L : Nat}
    (hn : l.lexemes.length ≤ 2147483648)
    (hb : bestAt (l.lexemes.map (fun p => p.re)) b.next 0 = some (w, L)) :
    l.getNextToken b = .tok ⟨(w : Int), b.substring L, b.index⟩ (b.advance L) := by
  have hw : w < l.lexemes.length := by
    obtain ⟨p, hp, _⟩ := bestAt_sound hb
    have := List.get?_eq_some.mp hp
    obtain ⟨hlt, _⟩ := this
    simpa using hlt
  unfold Lexer.getNextToken
  rw [engineRun_some (findSubmatch_of_bestAt hb)]
  exact getNextTokenWith_valid hn hw (canonicalEntries_valid _ _ _)

lemma getNextToken_tok_inv {l : Lexer} {b : indexedBuffer} {t : Token} {b' : indexedBuffer}
    (h : l.getNextToken b = .tok t b') :
    ∃ w L dn, findSubmatch (l.lexemes.map (fun p => p.re)) b.next = some (0, w, L) ∧
      L ≤ b.next.length ∧ t = ⟨dn, b.next.take L, b.index⟩ ∧ b' = b.advance L := by
  unfold Lexer.getNextToken at h
  cases hf : findSubmatch (l.lexemes.map (fun p => p.re)) b.next with
  | none =>
    rw [engineRun_none hf, getNextTokenWith_none] at h
    exact absurd h (by simp)
  | some r =>
    obtain ⟨s, w, L⟩ := r
    obtain ⟨hs, hba⟩ := findSubmatch_sound hf
    subst hs
    rw [engineRun_some hf, getNextTokenWith_some] at h
    cases hscan : scanGroups ((subexpNames l.lexemes).zip (canonicalEntries l.lexemes w L)) with
    | none =>
      rw [hscan] at h
      exact absurd h (by simp)
    | some pr =>
      obtain ⟨dn, len⟩ := pr
      rw [hscan] at h
      have hlen : len = L := scan_canonical_len l.lexemes 0 w L dn len hscan
      subst hlen
      have hL : len ≤ b.next.length := by
        obtain ⟨p, hp, hsp⟩ := bestAt_sound hba
        exact (spanMatch_sound hsp).2.1
      simp only [TokenResult.tok.injEq] at h
      obtain ⟨ht, hb'⟩ := h
      exact ⟨w, len, dn, rfl, hL, ht.symm, hb'.symm⟩

lemma skipWSAux_buffer (sn : Bool) : ∀ (fuel : Nat) (b : indexedBuffer),
    (skipWSAux sn fuel b).buffer = b.buffer := by
  intro fuel
  induction fuel with
  | zero => intro b; rfl
  | succ fuel ih =>
    intro b
    simp only [skipWSAux]
    split
    · rfl
    · split
      · rfl
      · exact ih ⟨b.buffer, b.index + 1⟩

lemma skipWSAux_index_mono (sn : Bool) : ∀ (fuel : Nat) (b : indexedBuffer),
    b.index ≤ (skipWSAux sn fuel b).index := by
  intro fuel
  induction fuel with
  | zero => intro b; exact Nat.le_refl _
  | succ fuel ih =>
    intro b
    simp only [skipWSAux]
    split
    · exact Nat.le_refl _
    · split
      · exact Nat.le_refl _
      · have := ih ⟨b.buffer, b.index + 1⟩
        simp at this
        omega

lemma skipWSAux_index_le (sn : Bool) : ∀ (fuel : Nat) (b : indexedBuffer),
    b.index ≤ b.buffer.length → (skipWSAux sn fuel b).index ≤ b.buffer.length := by
  intro fuel
  induction fuel with
  | zero => intro b h; exact h
  | succ fuel ih =>
    intro b h
    simp only [skipWSAux]
    split
    · exact h
    · split
      · exact h
      · case isFalse hend _ =>
        have hlt : b.index < b.buffer.length := by
          simp [indexedBuffer.endOfInput] at hend
          omega
        have := ih ⟨b.buffer, b.index + 1⟩ (by simpa using hlt)
        simpa using this

lemma skipWhitespace_buffer (b : indexedBuffer) (sn : Bool) :
    (b.skipWhitespace sn).buffer = b.buffer :=
  skipWSAux_buffer sn _ b

lemma skipWhitespace_index_mono (b : indexedBuffer) (sn : Bool) :
    b.index ≤ (b.skipWhitespace sn).index :=
  skipWSAux_index_mono sn _ b

lemma skipWhitespace_index_le (b : indexedBuffer) (sn : Bool)
    (h : b.index ≤ b.buffer.length) : (b.skipWhitespace sn).index ≤ b.buffer.length :=
  skipWSAux_index_le sn _ b h

lemma lexLoop_succ (l : Lexer) (fuel : Nat) (b : indexedBuffer) (list : List Token) :
    lexLoop l (fuel + 1) b list =
      if (b.skipWhitespace l.skipNewline).endOfInput then .ok list
      else
        match l.getNextToken (b.skipWhitespace l.skipNewline) with
        | .tok t b3 => lexLoop l fuel b3 (list ++ [t])
        | .noMatch _ idx => .matchErr idx
        | .panicked => .panicked := rfl

lemma lexLoop_values (l : Lexer) (input : Str) : ∀ (fuel : Nat) (b : indexedBuffer)
    (acc ts : List Token), b.buffer = input → lexLoop l fuel b acc = .ok ts →
    (∀ t ∈ acc, (input.drop t.Index).take t.Value.length = t.Value) →
    ∀ t ∈ ts, (input.drop t.Index).take t.Value.length = t.Value := by
  intro fuel
  induction fuel with
  | zero =>
    intro b acc ts hb h hacc
    simp [lexLoop] at h
  | succ fuel ih =>
    intro b acc ts hb h hacc
    rw [lexLoop_succ] at h
    have hb2buf : (b.skipWhitespace l.skipNewline).buffer = input := by
      rw [skipWhitespace_buffer, hb]
    by_cases hend : (b.skipWhitespace l.skipNewline).endOfInput = true
    · rw [if_pos hend] at h
      simp at h
      subst h
      exact hacc
    · rw [if_neg hend] at h
      cases hg : l.getNextToken (b.skipWhitespace l.skipNewline) with
      | tok t' b3 =>
        rw [hg] at h
        obtain ⟨w, L, dn, hf, hL, ht', hb3⟩ := getNextToken_tok_inv hg
        have hb3buf : b3.buffer = input := by
          rw [hb3]
          simpa [indexedBuffer.advance] using hb2buf
        refine ih b3 (acc ++ [t']) ts hb3buf h ?_
        intro t ht
        rcases List.mem_append.mp ht with h1 | h1
        · exact hacc t h1
        · have heq : t = t' := by simpa using h1
          subst heq
          rw [ht']
          have hnext : (b.skipWhitespace l.skipNewline).next =
              input.drop (b.skipWhitespace l.skipNewline).index := by
            rw [show (b.skipWhitespace l.skipNewline).next =
              (b.skipWhitespace l.skipNewline).buffer.drop
                (b.skipWhitespace l.skipNewline).index from rfl, hb2buf]
          have hlen2 : ((b.skipWhitespace l.skipNewline).next.take L).length = L := by
            rw [List.length_take]
            exact min_eq_left hL
          rw [hnext] at hlen2
          simp only [hnext, hlen2]
      | noMatch t0 idx =>
        rw [hg] at h
        exact absurd h (by simp)
      | panicked =>
        rw [hg] at h
        exact absurd h (by simp)

lemma Reaches.snoc {l : Lexer} {a b b3 : indexedBuffer} {t : Token}
    (hr : Reaches l a b)
    (hend : (b.skipWhitespace l.skipNewline).endOfInput = false)
    (htok : l.getNextToken (b.skipWhitespace l.skipNewline) = .tok t b3) :
    Reaches l a b3 := by
  induction hr with
  | refl b => exact Reaches.step b b3 b3 t hend htok (Reaches.refl b3)
  | step b0 b0' c t0 hend0 htok0 hrest ih =>
    exact Reaches.step b0 b0' b3 t0 hend0 htok0 (ih hend htok)

lemma lexLoop_progress (l : Lexer) (input : Str)
    (hsel : ∀ b2, Reaches l ⟨input, 0⟩ b2 →
      (b2.skipWhitespace l.skipNewline).endOfInput = false →
      ∀ w L, bestAt (l.lexemes.map (fun p => p.re))
        ((b2.skipWhitespace l.skipNewline).next) 0 = some (w, L) → 0 < L) :
    ∀ (fuel : Nat) (b : indexedBuffer) (acc : List Token),
      Reaches l ⟨input, 0⟩ b →
      b.buffer = input → b.index ≤ input.length → input.length - b.index < fuel →
      lexLoop l fuel b acc ≠ .diverged := by
  intro fuel
  induction fuel with
  | zero =>
    intro b acc hreach h1 h2 h3
    omega
  | succ fuel ih =>
    intro b acc hreach hb hle hlt
    rw [lexLoop_succ]
    have hb2buf : (b.skipWhitespace l.skipNewline).buffer = input := by
      rw [skipWhitespace_buffer, hb]
    have hmono : b.index ≤ (b.skipWhitespace l.skipNewline).index :=
      skipWhitespace_index_mono b l.skipNewline
    have hle2 : (b.skipWhitespace l.skipNewline).index ≤ input.length := by
      have h0 : b.index ≤ b.buffer.length := by rw [hb]; exact hle
      have h1 := skipWhitespace_index_le b l.skipNewline h0
      rw [hb] at h1
      exact h1
    by_cases hend : (b.skipWhitespace l.skipNewline).endOfInput = true
    · rw [if_pos hend]
      simp
    · rw [if_neg hend]
      have hendf : (b.skipWhitespace l.skipNewline).endOfInput = false := by
        simpa using hend
      have hlt2 : (b.skipWhitespace l.skipNewline).index < input.length := by
        simp only [indexedBuffer.endOfInput, decide_eq_true_eq] at hend
        rw [hb2buf] at hend
        omega
      cases hg : l.getNextToken (b.skipWhitespace l.skipNewline) with
      | tok t' b3 =>
        show lexLoop l fuel b3 (acc ++ [t']) ≠ LexResult.diverged
        obtain ⟨w, L, dn, hf, hL, ht', hb3⟩ := getNextToken_tok_inv hg
        have hba := (findSubmatch_sound hf).2
        have hLpos : 0 < L := hsel b hreach hendf w L hba
        have hnextlen : (b.skipWhitespace l.skipNewline).next.length =
            input.length - (b.skipWhitespace l.skipNewline).index := by
          rw [show (b.skipWhitespace l.skipNewline).next =
            (b.skipWhitespace l.skipNewline).buffer.drop
              (b.skipWhitespace l.skipNewline).index from rfl, hb2buf]
          simp
        have hL' : L ≤ input.length - (b.skipWhitespace l.skipNewline).index := by
          rw [hnextlen] at hL
          exact hL
        refine ih b3 (acc ++ [t']) (hreach.snoc hendf hg) ?_ ?_ ?_
        · rw [hb3]
          simpa [indexedBuffer.advance] using hb2buf
        · rw [hb3]
          simp only [indexedBuffer.advance]
          omega
        · rw [hb3]
          simp only [indexedBuffer.advance]
          omega
      | noMatch t0 idx => simp
      | panicked => simp

lemma allOthersShorter_spec {l : Lexer} {t : Str} {i li j : Nat} {q : LexPattern} {lj : Nat}
    (h : allOthersShorter l t i li = true) (hj : l.lexemes.get? j = some q) (hne : j ≠ i)
    (hs : spanMatch q.re t 0 = some lj) : lj < li := by
  have henum : l.lexemes.enum.get? j = some (j, q) := by
    rw [List.get?_enum, hj]
    rfl
  have hmem : (j, q) ∈ l.lexemes.enum := List.get?_mem henum
  have hp := List.all_eq_true.mp h (j, q) hmem
  simp only [hs, Bool.or_eq_true, beq_iff_eq, decide_eq_true_eq] at hp
  rcases hp with hp | hp
  · exact absurd hp hne
  · exact hp

lemma noLonger_spec {l : Lexer} {t : Str} {L : Nat} {q : LexPattern} {lj : Nat}
    (h : noLonger l t L = true) (hq : q ∈ l.lexemes)
    (hs : spanMatch q.re t 0 = some lj) : lj ≤ L := by
  have hp := List.all_eq_true.mp h q hq
  simp only [hs, decide_eq_true_eq] at hp
  exact hp

lemma noEarlierTie_spec {l : Lexer} {t : Str} {i L j : Nat} {q : LexPattern}
    (h : noEarlierTie l t i L = true) (hj : l.lexemes.get? j = some q) (hlt : j < i) :
    spanMatch q.re t 0 ≠ some L := by
  have henum : l.lexemes.enum.get? j = some (j, q) := by
    rw [List.get?_enum, hj]
    rfl
  have hmem : (j, q) ∈ l.lexemes.enum := List.get?_mem henum
  have hp := List.all_eq_true.mp h (j, q) hmem
  simp only [Bool.or_eq_true, decide_eq_true_eq, Bool.not_eq_true', beq_eq_false_iff_ne,
    ne_eq] at hp
  rcases hp with hp | hp
  · omega
  · exact hp

lemma bestAt_of_lexemes (l : Lexer) (t : Str) :
    bestAt (l.lexemes.map (fun p => p.re)) t 0 =
      bestOf (l.lexemes.map (fun q => spanMatch q.re t 0)) := by
  unfold bestAt
  rw [List.map_map]
  rfl

lemma emits_smallest_tied (l : Lexer) (b : indexedBuffer) (i L : Nat) (p : LexPattern)
    (hn : l.lexemes.length ≤ 2147483648)
    (hget : l.lexemes.get? i = some p)
    (hspan : spanMatch p.re b.next 0 = some L)
    (hle : noLonger l b.next L = true)
    (hti : noEarlierTie l b.next i L = true) :
    l.getNextToken b = .tok ⟨(i : Int), b.substring L, b.index⟩ (b.advance L) := by
  have hls : (l.lexemes.map (fun q => spanMatch q.re b.next 0)).get? i = some (some L) := by
    rw [List.get?_map, hget]
    simp [hspan]
  have hle' : ∀ j lj, (l.lexemes.map (fun q => spanMatch q.re b.next 0)).get? j =
      some (some lj) → lj ≤ L := by
    intro j lj hj
    rw [List.get?_map] at hj
    cases hq : l.lexemes.get? j with
    | none => rw [hq] at hj; simp at hj
    | some q =>
      rw [hq] at hj
      simp at hj
      exact noLonger_spec hle (List.get?_mem hq) hj
  have hnot : ∀ j, j < i → (l.lexemes.map (fun q => spanMatch q.re b.next 0)).get? j ≠
      some (some L) := by
    intro j hji hcon
    rw [List.get?_map] at hcon
    cases hq : l.lexemes.get? j with
    | none => rw [hq] at hcon; simp at hcon
    | some q =>
      rw [hq] at hcon
      simp at hcon
      exact absurd hcon (noEarlierTie_spec hti hq hji)
  have hba : bestAt (l.lexemes.map (fun p => p.re)) b.next 0 = some (i, L) := by
    rw [bestAt_of_lexemes]
    exact bestOf_least hls hle' hnot
  exact getNextToken_of_bestAt hn hba

lemma New_skipNewline_true {lexemes : List LexPattern}
    (h : ¬ ∃ p ∈ lexemes, p.src = ['\n']) : (New lexemes).skipNewline = true := by
  have hany : lexemes.any (fun l => l.src == ['\n']) = false := by
    rw [List.any_eq_false]
    intro p hp hc
    exact h ⟨p, hp, by simpa using hc⟩
  simp [New, hany]

lemma New_skipNewline_false {lexemes : List LexPattern}
    (h : ∃ p ∈ lexemes, p.src = ['\n']) : (New lexemes).skipNewline = false := by
  obtain ⟨p, hp, hsrc⟩ := h
  have hany : lexemes.any (fun l => l.src == ['\n']) = true := by
    rw [List.any_eq_true]
    exact ⟨p, hp, by simp [hsrc]⟩
  simp [New, hany]

lemma skipWSAux_stop_true : ∀ (fuel : Nat) (b : indexedBuffer),
    b.buffer.length - b.index ≤ fuel →
    (skipWSAux true fuel b).endOfInput = true ∨
    isSpaceByte ((skipWSAux true fuel b).buffer.getD (skipWSAux true fuel b).index
      (Char.ofNat 0)) = false := by
  intro fuel
  induction fuel with
  | zero =>
    intro b h
    left
    simp only [skipWSAux, indexedBuffer.endOfInput]
    simp
    omega
  | succ fuel ih =>
    intro b h
    simp only [skipWSAux]
    split
    case isTrue hend => left; exact hend
    case isFalse hend =>
      split
      case isTrue hstop =>
        right
        simpa using hstop
      case isFalse hstop =>
        have hlt : b.index < b.buffer.length := by
          simp only [indexedBuffer.endOfInput] at hend
          simp at hend
          omega
        exact ih ⟨b.buffer, b.index + 1⟩ (by simp; omega)

lemma skipWhitespace_stop_true (b : indexedBuffer) :
    (b.skipWhitespace true).endOfInput = true ∨
    isSpaceByte ((b.skipWhitespace true).buffer.getD (b.skipWhitespace true).index
      (Char.ofNat 0)) = false :=
  skipWSAux_stop_true _ b (Nat.le_refl _)

lemma skipWSAux_false_newline : ∀ (fuel : Nat) (b : indexedBuffer),
    b.buffer.getD b.index (Char.ofNat 0) = '\n' → skipWSAux false fuel b = b := by
  intro fuel b h
  cases fuel with
  | zero => rfl
  | succ fuel =>
    simp only [skipWSAux, h]
    simp

lemma skipWhitespace_false_newline (b : indexedBuffer)
    (h : b.buffer.getD b.index (Char.ofNat 0) = '\n') : b.skipWhitespace false = b :=
  skipWSAux_false_newline _ b h

lemma drop_take_one : ∀ (l : Str) (i : Nat), i < l.length →
    (l.drop i).take 1 = [l.getD i (Char.ofNat 0)] := by
  intro l
  induction l with
  | nil => intro i h; simp at h
  | cons c cs ih =>
    intro i h
    cases i with
    | zero => rfl
    | succ i => exact ih i (by simpa using h)

lemma rmatch_cons (r : Regex) (c : Char) (cs : Str) :
    rmatch r (c :: cs) = rmatch (r.deriv c) cs := rfl

lemma rmatch_cat_emp : ∀ cs : Str, rmatch (Regex.cat .emp .eps) cs = false := by
  intro cs
  induction cs with
  | nil => rfl
  | cons c cs ih => exact ih

lemma rmatch_alt_emp : ∀ cs : Str, rmatch (Regex.alt (.cat .emp .eps) .emp) cs = false := by
  intro cs
  induction cs with
  | nil => rfl
  | cons c cs ih => exact ih

lemma rmatch_cat_eps_eps : ∀ cs : Str, (rmatch (Regex.cat .eps .eps) cs = true ↔ cs = []) := by
  intro cs
  cases cs with
  | nil => simp [rmatch, Regex.nullable]
  | cons c cs =>
    rw [rmatch_cons]
    have : (Regex.cat .eps .eps).deriv c = Regex.alt (.cat .emp .eps) .emp := rfl
    rw [this, rmatch_alt_emp]
    simp

lemma rmatch_newline_iff : ∀ s : Str, (rmatch (strRe ['\n']) s = true ↔ s = ['\n']) := by
  intro s
  cases s with
  | nil => simp [strRe, rmatch, Regex.nullable]
  | cons c cs =>
    rw [show strRe ['\n'] = Regex.cat (.chr ['\n']) .eps from rfl]
    rw [rmatch_cons]
    by_cases hc : c = '\n'
    · subst hc
      rw [show (Regex.cat (.chr ['\n']) .eps).deriv '\n' = Regex.cat .eps .eps from rfl]
      rw [rmatch_cat_eps_eps]
      simp
    · have hcon : ((['\n'] : List Char).contains c) = false := by
        simp [List.contains]
        exact fun hcc => hc hcc
      have hder : (Regex.cat (.chr ['\n']) .eps).deriv c = Regex.cat .emp .eps := by
        simp only [Regex.deriv, Regex.nullable, hcon]
        simp
      rw [hder, rmatch_cat_emp]
      simp
      exact fun hcc => absurd hcc hc

lemma spanMatch_newline {t : Str} (h1 : t.take 1 = ['\n']) (hlen : 1 ≤ t.length) :
    spanMatch (strRe ['\n']) t 0 = some 1 := by
  have aux : ∀ d, 1 ≤ d → d ≤ t.length → tryLens (strRe ['\n']) t 0 d = some 1 := by
    intro d
    induction d with
    | zero => intro h _; omega
    | succ d ih =>
      intro hd1 hd2
      by_cases hd : d = 0
      · subst hd
        unfold tryLens
        rw [if_pos]
        unfold wrappedMatchAt
        simp only [List.drop_zero]
        rw [h1]
        simp [(rmatch_newline_iff ['\n']).mpr rfl]
      · unfold tryLens
        rw [if_neg]
        · exact ih (by omega) (by omega)
        · unfold wrappedMatchAt
          simp only [List.drop_zero]
          intro hcon
          simp only [Bool.and_eq_true] at hcon
          have := (rmatch_newline_iff (t.take (d + 1))).mp hcon.2
          have hlen2 : (t.take (d + 1)).length = d + 1 := by
            rw [List.length_take]
            omega
          rw [this] at hlen2
          simp at hlen2
          omega
  have : t.length - 0 = t.length := by omega
  unfold spanMatch
  rw [this]
  exact aux t.length hlen (Nat.le_refl _)

lemma lexLoop_nonspace_offsets (l : Lexer) (input : Str) (hsn : l.skipNewline = true) :
    ∀ (fuel : Nat) (b : indexedBuffer) (acc ts : List Token),
      b.buffer = input → lexLoop l fuel b acc = .ok ts →
      (∀ t ∈ acc, isSpaceByte (input.getD t.Index (Char.ofNat 0)) = false) →
      ∀ t ∈ ts, isSpaceByte (input.getD t.Index (Char.ofNat 0)) = false := by
  intro fuel
  induction fuel with
  | zero =>
    intro b acc ts hb h hacc
    simp [lexLoop] at h
  | succ fuel ih =>
    intro b acc ts hb h hacc
    rw [lexLoop_succ] at h
    have hb2buf : (b.skipWhitespace l.skipNewline).buffer = input := by
      rw [skipWhitespace_buffer, hb]
    by_cases hend : (b.skipWhitespace l.skipNewline).endOfInput = true
    · rw [if_pos hend] at h
      simp at h
      subst h
      exact hacc
    · rw [if_neg hend] at h
      cases hg : l.getNextToken (b.skipWhitespace l.skipNewline) with
      | tok t' b3 =>
        rw [hg] at h
        obtain ⟨w, L, dn, hf, hL, ht', hb3⟩ := getNextToken_tok_inv hg
        have hb3buf : b3.buffer = input := by
          rw [hb3]
          simpa [indexedBuffer.advance] using hb2buf
        refine ih b3 (acc ++ [t']) ts hb3buf h ?_
        intro t ht
        rcases List.mem_append.mp ht with h1 | h1
        · exact hacc t h1
        · have heq : t = t' := by simpa using h1
          subst heq
          rw [ht']
          rw [hsn] at hend hb2buf ⊢
          rcases skipWhitespace_stop_true b with hstop | hstop
          · exact absurd hstop hend
          · rw [hb2buf] at hstop
            exact hstop
      | noMatch t0 idx =>
        rw [hg] at h
        exact absurd h (by simp)
      | panicked =>
        rw [hg] at h
        exact absurd h (by simp)

/-- Claim C1: for every pattern set accepted by New and every scan
position, if pattern `i`'s longest match at the position is strictly
longer than every other pattern's longest match there, the token emitted
carries pattern `i`'s index and matched text, regardless of where `i`
sits in declaration order. -/
theorem longest_match_wins (l : Lexer) (b : indexedBuffer) (i li : Nat) (p : LexPattern)
    (hn : l.lexemes.length ≤ 2147483648)
    (hget : l.lexemes.get? i = some p)
    (hspan : spanMatch p.re b.next 0 = some li)
    (hothers : allOthersShorter l b.next i li = true) :
    l.getNextToken b = .tok ⟨(i : Int), b.substring li, b.index⟩ (b.advance li) := by
  have hls : (l.lexemes.map (fun q => spanMatch q.re b.next 0)).get? i = some (some li) := by
    rw [List.get?_map, hget]
    simp [hspan]
  have hle : ∀ j lj, (l.lexemes.map (fun q => spanMatch q.re b.next 0)).get? j =
      some (some lj) → lj ≤ li := by
    intro j lj hj
    rw [List.get?_map] at hj
    cases hq : l.lexemes.get? j with
    | none => rw [hq] at hj; simp at hj
    | some q =>
      rw [hq] at hj
      simp at hj
      by_cases hji : j = i
      · subst hji
        rw [hget] at hq
        have hqp : q = p := by injection hq with h1; exact h1.symm
        subst hqp
        rw [hspan] at hj
        injection hj with h1
        omega
      · exact Nat.le_of_lt (allOthersShorter_spec hothers hq hji hj)
  have hnot : ∀ j, j < i → (l.lexemes.map (fun q => spanMatch q.re b.next 0)).get? j ≠
      some (some li) := by
    intro j hji hcon
    rw [List.get?_map] at hcon
    cases hq : l.lexemes.get? j with
    | none => rw [hq] at hcon; simp at hcon
    | some q =>
      rw [hq] at hcon
      simp at hcon
      exact absurd (allOthersShorter_spec hothers hq (by omega) hcon) (by omega)
  have hba : bestAt (l.lexemes.map (fun p => p.re)) b.next 0 = some (i, li) := by
    rw [bestAt_of_lexemes]
    exact bestOf_least hls hle hnot
  exact getNextToken_of_bestAt hn hba

theorem longest_match_wins_witness :
    (New [litPat ['a'], litPat ['a','b']]).lexemes.get? 1 = some (litPat ['a','b']) ∧
    (New [litPat ['a'], litPat ['a','b']]).getNextToken ⟨['a','b'], 0⟩ =
      .tok ⟨(1 : Int), ['a','b'], 0⟩ ⟨['a','b'], 2⟩ :=
  ⟨rfl, longest_match_wins (New [litPat ['a'], litPat ['a','b']]) ⟨['a','b'], 0⟩ 1 2
    (litPat ['a','b']) (by decide) (by rfl) (by decide) (by decide)⟩

/-- Claim C2: for every pattern set accepted by New and every scan
position, if pattern `i` achieves the longest match length `L`, no
pattern matches longer, and no earlier pattern also achieves `L`, the
emitted token carries index `i` — the smallest index among those tied at
the longest length. -/
theorem tie_smallest_index_wins (l : Lexer) (b : indexedBuffer) (i L : Nat) (p : LexPattern)
    (hn : l.lexemes.length ≤ 2147483648)
    (hget : l.lexemes.get? i = some p)
    (hspan : spanMatch p.re b.next 0 = some L)
    (hle : noLonger l b.next L = true)
    (hti : noEarlierTie l b.next i L = true) :
    l.getNextToken b = .tok ⟨(i : Int), b.substring L, b.index⟩ (b.advance L) :=
  emits_smallest_tied l b i L p hn hget hspan hle hti

theorem tie_smallest_index_wins_witness :
    (New [litPat ['a'], ⟨['a','|','b'], .alt (.chr ['a']) (.chr ['b'])⟩]).lexemes.get? 0 =
      some (litPat ['a']) ∧
    (New [litPat ['a'], ⟨['a','|','b'], .alt (.chr ['a']) (.chr ['b'])⟩]).getNextToken
      ⟨['a'], 0⟩ = .tok ⟨(0 : Int), ['a'], 0⟩ ⟨['a'], 1⟩ :=
  ⟨rfl, tie_smallest_index_wins
    (New [litPat ['a'], ⟨['a','|','b'], .alt (.chr ['a']) (.chr ['b'])⟩]) ⟨['a'], 0⟩ 0 1
    (litPat ['a']) (by decide) (by rfl) (by decide) (by decide) (by decide)⟩

/-- Claim C5 (counterexample to the literal duality): a pattern set made
of a base pattern whose source is the regex matching a newline or a
space, plus a literal newline pattern, on the one-newline input: the
skip-newline flag is false, yet the newline's token carries index 0 (the
earlier, broader pattern) and not the newline pattern's index 1 — the
newline does not produce "its own Token with that pattern's index". -/
theorem newline_duality_counterexample :
    (New c5CexPatterns).skipNewline = false ∧
    (New c5CexPatterns).Lex ['\n'] = .ok [⟨(0 : Int), ['\n'], 0⟩] ∧
    c5CexPatterns.get? 1 = some (litPat ['\n']) ∧ (0 : Int) ≠ 1 := by
  refine ⟨by decide, by decide, by decide, by decide⟩

/-- Claim C5 (amended): the skip-newline flag computed by New is false
exactly when the literal one-character newline string appears verbatim
among the pattern entries.  Consequently, for every pattern set without
such an entry and every input, Lex skips newlines inside whitespace runs
and emits no token for them: no emitted token sits on a whitespace byte,
in particular never on a newline.  For every pattern set with such an
entry, whitespace skipping never moves past a newline, and at each
newline position the scan emits that newline's own token with the newline
pattern's index — provided (as the counterexample forces) no pattern
matches a strictly longer span at the newline and no earlier pattern also
matches the single newline, otherwise the usual longest-match /
smallest-index rule chooses the other pattern. -/
theorem newline_flag_and_duality :
    (∀ lexemes : List LexPattern,
      ((New lexemes).skipNewline = false ↔ ∃ p ∈ lexemes, p.src = ['\n']))
    ∧ (∀ (lexemes : List LexPattern) (input : Str) (ts : List Token),
        (¬ ∃ p ∈ lexemes, p.src = ['\n']) →
        (New lexemes).Lex input = .ok ts →
        ∀ t ∈ ts, isSpaceByte (input.getD t.Index (Char.ofNat 0)) = false ∧
          input.getD t.Index (Char.ofNat 0) ≠ '\n')
    ∧ (∀ (lexemes : List LexPattern) (b : indexedBuffer),
        (∃ p ∈ lexemes, p.src = ['\n']) →
        b.buffer.getD b.index (Char.ofNat 0) = '\n' →
        b.skipWhitespace (New lexemes).skipNewline = b)
    ∧ (∀ (lexemes : List LexPattern) (k : Nat) (b : indexedBuffer),
        lexemes.get? k = some (litPat ['\n']) →
        lexemes.length ≤ 2147483648 →
        b.index < b.buffer.length →
        b.buffer.getD b.index (Char.ofNat 0) = '\n' →
        noLonger (New lexemes) b.next 1 = true →
        noEarlierTie (New lexemes) b.next k 1 = true →
        (New lexemes).getNextToken b = .tok ⟨(k : Int), ['\n'], b.index⟩ (b.advance 1)) := by
  refine ⟨?_, ?_, ?_, ?_⟩
  · intro lexemes
    simp [New, List.any_eq_true]
  · intro lexemes input ts hnn hok t ht
    have hsn := New_skipNewline_true hnn
    have h1 := lexLoop_nonspace_offsets (New lexemes) input hsn (input.length + 1)
      ⟨input, 0⟩ [] ts rfl hok (by simp) t ht
    refine ⟨h1, ?_⟩
    intro hcon
    rw [hcon] at h1
    exact absurd h1 (by decide)
  · intro lexemes b hex hchar
    rw [New_skipNewline_false hex]
    exact skipWhitespace_false_newline b hchar
  · intro lexemes k b hget hn hlt hchar hle hti
    have htake : b.next.take 1 = ['\n'] := by
      rw [show b.next = b.buffer.drop b.index from rfl]
      rw [drop_take_one b.buffer b.index hlt, hchar]
    have hnlen : 1 ≤ b.next.length := by
      rw [show b.next = b.buffer.drop b.index from rfl]
      simp
      omega
    have hspan : spanMatch (litPat ['\n']).re b.next 0 = some 1 :=
      spanMatch_newline htake hnlen
    have hsub : b.substring 1 = ['\n'] := by
      rw [show b.substring 1 = (b.buffer.drop b.index).take 1 from rfl]
      rw [drop_take_one b.buffer b.index hlt, hchar]
    have := emits_smallest_tied (New lexemes) b k 1 (litPat ['\n']) hn hget hspan hle hti
    rw [hsub] at this
    exact this

theorem newline_flag_and_duality_witness :
    [litPat ['a'], litPat ['\n']].get? 1 = some (litPat ['\n']) ∧
    (New [litPat ['a'], litPat ['\n']]).getNextToken ⟨['\n','t'], 0⟩ =
      .tok ⟨(1 : Int), ['\n'], 0⟩ ⟨['\n','t'], 1⟩ :=
  ⟨rfl, newline_flag_and_duality.2.2.2 [litPat ['a'], litPat ['\n']] 1 ⟨['\n','t'], 0⟩
    (by decide) (by decide) (by decide) (by decide) (by decide) (by decide)⟩

/-- Claim C6: every token of a successful Lex call satisfies the offset
round trip: the slice of the original input at the token's offset, of the
token value's length, is exactly the token's value. -/
theorem token_offsets_roundtrip (l : Lexer) (input : Str) (ts : List Token)
    (h : l.Lex input = .ok ts) :
    ∀ t ∈ ts, (input.drop t.Index).take t.Value.length = t.Value :=
  lexLoop_values l input (input.length + 1) ⟨input, 0⟩ [] ts rfl h (by simp)

theorem token_offsets_roundtrip_witness :
    (New [litPat ['a']]).Lex ['a'] = .ok [⟨0, ['a'], 0⟩] ∧
    ∀ t ∈ [(⟨0, ['a'], 0⟩ : Token)],
      ((['a'] : Str).drop t.Index).take t.Value.length = t.Value :=
  ⟨by decide, token_offsets_roundtrip (New [litPat ['a']]) ['a'] [⟨0, ['a'], 0⟩] (by decide)⟩

/-- Claim C8: whenever every match the combined matcher selects during
the scan — at a state the scan loop actually reaches whose post-skip
cursor is not at the end of input — has positive length, Lex terminates:
the cursor strictly increases each iteration and is bounded by the input
length, so the scan loop's fuel of `input.length + 1` is never
exhausted. -/
theorem lex_terminates_on_progress (l : Lexer) (input : Str)
    (hsel : ∀ b2, Reaches l ⟨input, 0⟩ b2 →
      (b2.skipWhitespace l.skipNewline).endOfInput = false →
      ∀ w L, bestAt (l.lexemes.map (fun p => p.re))
        ((b2.skipWhitespace l.skipNewline).next) 0 = some (w, L) → 0 < L) :
    l.Lex input ≠ .diverged :=
  lexLoop_progress l input hsel (input.length + 1) ⟨input, 0⟩ [] (Reaches.refl _) rfl
    (by simp) (by omega)

theorem lex_terminates_on_progress_witness :
    (∀ b2, Reaches (New [litPat ['a']]) ⟨['a','a'], 0⟩ b2 →
      (b2.skipWhitespace (New [litPat ['a']]).skipNewline).endOfInput = false →
      ∀ w L, bestAt ((New [litPat ['a']]).lexemes.map (fun p => p.re))
        ((b2.skipWhitespace (New [litPat ['a']]).skipNewline).next) 0 = some (w, L) →
        0 < L) ∧
    (New [litPat ['a']]).Lex ['a','a'] ≠ .diverged := by
  have hsel : ∀ b2, Reaches (New [litPat ['a']]) ⟨['a','a'], 0⟩ b2 →
      (b2.skipWhitespace (New [litPat ['a']]).skipNewline).endOfInput = false →
      ∀ w L, bestAt ((New [litPat ['a']]).lexemes.map (fun p => p.re))
        ((b2.skipWhitespace (New [litPat ['a']]).skipNewline).next) 0 = some (w, L) →
        0 < L := by
    intro b2 _ _ w L hba
    obtain ⟨p, hp, hsp⟩ := bestAt_sound hba
    cases w with
    | zero =>
      have hred : (List.map (fun p => p.re) (New [litPat ['a']]).lexemes).get? 0 =
          some (strRe ['a']) := rfl
      rw [hred] at hp
      have hpe : p = strRe ['a'] := by
        injection hp with h1
        exact h1.symm
      subst hpe
      by_contra hL0
      have hL : L = 0 := by omega
      subst hL
      have hm := (spanMatch_sound hsp).2.2
      rw [List.take_zero] at hm
      exact absurd hm (by decide)
    | succ w => simp [New] at hp
  exact ⟨hsel, lex_terminates_on_progress (New [litPat ['a']]) ['a','a'] hsel⟩

/-- Claim C9: the final branch of getNextToken — reached only when the
matcher matched overall but no declared pattern index was found — is
unreachable: for every engine response satisfying the contract, and for
the engine model itself, getNextToken never reaches it. -/
theorem attribution_branch_unreachable (l : Lexer) (b : indexedBuffer)
    (hn : l.lexemes.length ≤ 2147483648) :
    (∀ res, EngineOK l b res → getNextTokenWith l b res ≠ .panicked)
    ∧ l.getNextToken b ≠ .panicked := by
  have hwlt : ∀ s w L, findSubmatch (l.lexemes.map (fun p => p.re)) b.next = some (s, w, L) →
      w < l.lexemes.length := by
    intro s w L hf
    obtain ⟨hs, hba⟩ := findSubmatch_sound hf
    obtain ⟨p, hp, _⟩ := bestAt_sound hba
    obtain ⟨hlt, _⟩ := List.get?_eq_some.mp hp
    simpa using hlt
  constructor
  · intro res hok
    unfold EngineOK at hok
    cases hf : findSubmatch (l.lexemes.map (fun p => p.re)) b.next with
    | none =>
      rw [hf] at hok
      cases res with
      | none =>
        rw [getNextTokenWith_none]
        simp
      | some entries => exact hok.elim
    | some r =>
      obtain ⟨s, w, L⟩ := r
      rw [hf] at hok
      cases res with
      | none => exact hok.elim
      | some entries =>
        have hval : ValidEntries l.lexemes w L entries := hok
        rw [getNextTokenWith_valid hn (hwlt s w L hf) hval]
        simp
  · cases hf : findSubmatch (l.lexemes.map (fun p => p.re)) b.next with
    | none =>
      unfold Lexer.getNextToken
      rw [engineRun_none hf, getNextTokenWith_none]
      simp
    | some r =>
      obtain ⟨s, w, L⟩ := r
      unfold Lexer.getNextToken
      rw [engineRun_some hf]
      rw [getNextTokenWith_valid hn (hwlt s w L hf) (canonicalEntries_valid _ _ _)]
      simp

theorem attribution_branch_unreachable_witness :
    (New [litPat ['a']]).lexemes.length ≤ 2147483648 ∧
    ((∀ res, EngineOK (New [litPat ['a']]) ⟨['a'], 0⟩ res →
      getNextTokenWith (New [litPat ['a']]) ⟨['a'], 0⟩ res ≠ .panicked)
    ∧ (New [litPat ['a']]).getNextToken ⟨['a'], 0⟩ ≠ .panicked) :=
  ⟨by decide, attribution_branch_unreachable (New [litPat ['a']]) ⟨['a'], 0⟩ (by decide)⟩

/-- Claim C10 (refuted; evidence of the defect): the code's Token.Less is
not the lexicographic ordering by (Value, ID, Index) the spec describes:
on tokens t = (ID 1, "b", 0) and u = (ID 0, "a", 5), the code returns
true in both directions — because each guard falls through to the next
field without requiring equality of the previous one — while ("b", 1, 0)
does not lexicographically precede ("a", 0, 5). -/
theorem token_less_not_lexicographic :
    Token.Less ⟨1, ['b'], 0⟩ ⟨0, ['a'], 5⟩ = true
    ∧ Token.Less ⟨0, ['a'], 5⟩ ⟨1, ['b'], 0⟩ = true
    ∧ specOrderedLess ⟨1, ['b'], 0⟩ ⟨0, ['a'], 5⟩ = false := by
  decide
